import Mathlib

/-!
Verification of the TIR analysis layer of `kkpan11/tvm`
(`python/tvm/tir/analysis/analysis.py`).

The Python file under scrutiny is a thin shim over a native engine
(`_ffi_api`); the Python-side logic (argument-type dispatch, argument
defaulting) is embedded directly from the source, while the analyses the
shim delegates to are modelled from the specification, as noted on each
definition.
-/

/-- A TIR variable.  Identity is the arena index `id`; `name` is a purely
textual attribute.  Two `Var`s with the same name but different `id`s are
distinct variables. -/
structure Var where
  id : Nat
  name : String
deriving DecidableEq, Repr

/-- Modelled from the spec: the expression nodes of the TIR tree
(variable reference, integer constant, arithmetic / comparison / logical
operators, buffer load).  The native node definitions are not under
`src/`; this closed sum follows spec section 3 ("Expression node"). -/
inductive PrimExpr where
  | var : Var → PrimExpr
  | imm : Int → PrimExpr
  | add : PrimExpr → PrimExpr → PrimExpr
  | sub : PrimExpr → PrimExpr → PrimExpr
  | mul : PrimExpr → PrimExpr → PrimExpr
  | lt : PrimExpr → PrimExpr → PrimExpr
  | land : PrimExpr → PrimExpr → PrimExpr
  | load : Nat → PrimExpr → PrimExpr
deriving DecidableEq, Repr

/-- Modelled from the spec: the statement nodes of the TIR tree
(sequence, loop, let binding, buffer store, expression evaluation,
opaque handle passing, compute block with and without an init
sub-statement, attribute scope, allocation).  The native node
definitions are not under `src/`; this closed sum follows spec
section 3 ("Statement node", "Block"). -/
inductive Stmt where
  | skip : Stmt
  | seq : Stmt → Stmt → Stmt
  | forLoop : Var → PrimExpr → PrimExpr → Stmt → Stmt
  | letStmt : Var → PrimExpr → Stmt → Stmt
  | store : Nat → PrimExpr → PrimExpr → Stmt
  | evalStmt : PrimExpr → Stmt
  | handleCall : Nat → Stmt
  | block : List Var → Stmt → Stmt
  | blockInit : List Var → Stmt → Stmt → Stmt
  | attrStmt : String → Nat → Stmt → Stmt
  | alloc : String → Nat → Stmt → Stmt
deriving DecidableEq, Repr

/-- A TIR function: parameters and a body statement. -/
structure PrimFunc where
  params : List Var
  body : Stmt
deriving DecidableEq, Repr

/-- A module: a mapping from global names to functions. -/
structure IRModule where
  funcs : List (String × PrimFunc)
deriving DecidableEq, Repr

/-- Modelled from the spec: the native `ExprDeepEqual`
(`_ffi_api.expr_deep_equal`) is not under `src/`.  Two nodes are equal
iff their kinds match and all fields recursively match; variable
equality is by identity (`id`), never by name. -/
def expr_deep_equal : PrimExpr → PrimExpr → Bool
  | .var a, .var b => a.id == b.id
  | .imm a, .imm b => a == b
  | .add a b, .add c d => expr_deep_equal a c && expr_deep_equal b d
  | .sub a b, .sub c d => expr_deep_equal a c && expr_deep_equal b d
  | .mul a b, .mul c d => expr_deep_equal a c && expr_deep_equal b d
  | .lt a b, .lt c d => expr_deep_equal a c && expr_deep_equal b d
  | .land a b, .land c d => expr_deep_equal a c && expr_deep_equal b d
  | .load a i, .load b j => a == b && expr_deep_equal i j
  | _, _ => false

/-- Modelled from the spec: the binding sites collected by the native
SSA verifier (`_ffi_api.verify_ssa`, not under `src/`): loop variables,
block iteration variables and let-like bindings, across the whole
body. -/
def boundVars : Stmt → List Var
  | .skip => []
  | .seq a b => boundVars a ++ boundVars b
  | .forLoop v _ _ body => v :: boundVars body
  | .letStmt v _ body => v :: boundVars body
  | .store _ _ _ => []
  | .evalStmt _ => []
  | .handleCall _ => []
  | .block ivs body => ivs ++ boundVars body
  | .blockInit ivs ini body => ivs ++ boundVars ini ++ boundVars body
  | .attrStmt _ _ body => boundVars body
  | .alloc _ _ body => boundVars body

/-- Modelled from the spec: the native `_ffi_api.verify_ssa` is not
under `src/`.  Returns `false` iff some variable identity is bound more
than once anywhere in the function — no shadowing exception. -/
def verify_ssa (f : PrimFunc) : Bool :=
  decide (((boundVars f.body).map Var.id).Nodup)

/-- `x` and `y`: distinct identities, same textual name. -/
def varX : Var := ⟨0, "x"⟩

/-- Second variable of the example, same name as `varX`, different id. -/
def varY : Var := ⟨1, "x"⟩

/-- C3: `expr_deep_equal` is reflexive on every expression, and is
identity-sensitive on variables: `x+1` vs `x+1` over the same variable
identity is `true`, while `x+1` vs `y+1` over distinct identities is
`false` even though the two variables carry the same textual name. -/
theorem expr_deep_equal_refl_and_identity_sensitive :
    (∀ e : PrimExpr, expr_deep_equal e e = true) ∧
    expr_deep_equal (.add (.var varX) (.imm 1)) (.add (.var varX) (.imm 1)) = true ∧
    varX.name = varY.name ∧
    expr_deep_equal (.add (.var varX) (.imm 1)) (.add (.var varY) (.imm 1)) = false := by
  refine ⟨?_, by decide, rfl, by decide⟩
  intro e
  induction e with
  | var v => simp [expr_deep_equal]
  | imm n => simp [expr_deep_equal]
  | add a b ha hb => simp [expr_deep_equal, ha, hb]
  | sub a b ha hb => simp [expr_deep_equal, ha, hb]
  | mul a b ha hb => simp [expr_deep_equal, ha, hb]
  | lt a b ha hb => simp [expr_deep_equal, ha, hb]
  | land a b ha hb => simp [expr_deep_equal, ha, hb]
  | load n i hi => simp [expr_deep_equal, hi]

/-- Sibling loops over the very same variable identity: SSA violation. -/
def ssaBadFunc : PrimFunc :=
  { params := []
    body := .seq (.forLoop varX (.imm 0) (.imm 4) .skip)
                 (.forLoop varX (.imm 0) (.imm 4) .skip) }

/-- Sibling loops over distinct identities that share the name "x". -/
def ssaGoodFunc : PrimFunc :=
  { params := []
    body := .seq (.forLoop varX (.imm 0) (.imm 4) .skip)
                 (.forLoop varY (.imm 0) (.imm 4) .skip) }

/-- C4: `verify_ssa` returns `false` iff some variable identity has more
than one binding site anywhere in the function; a function with two
sibling, independently bound loop variables of the same identity fails,
while two loop variables with different identities pass even though
they share the same textual name. -/
theorem verify_ssa_iff_rebound :
    (∀ f : PrimFunc,
      verify_ssa f = false ↔
        ∃ i, 1 < ((boundVars f.body).map Var.id).count i) ∧
    verify_ssa ssaBadFunc = false ∧
    verify_ssa ssaGoodFunc = true ∧
    varX.name = varY.name := by
  refine ⟨?_, by decide, by decide, rfl⟩
  intro f
  rw [verify_ssa]
  simp only [decide_eq_false_iff_not, List.nodup_iff_count_le_one]
  push_neg
  exact Iff.rfl

/-- Constant folding used for loop extents: only an integer immediate
is a compile-time constant. -/
def evalConst : PrimExpr → Option Int
  | .imm n => some n
  | _ => none

/-- Modelled from the spec: expression part of the native FLOP
estimator (`_ffi_api.EstimateTIRFlops`, not under `src/`).  Each
arithmetic / comparison / logical operator node contributes a fixed
unit cost; variables, constants and load addressing carry none. -/
def exprFlops : PrimExpr → ℤ
  | .var _ => 0
  | .imm _ => 0
  | .add a b => 1 + exprFlops a + exprFlops b
  | .sub a b => 1 + exprFlops a + exprFlops b
  | .mul a b => 1 + exprFlops a + exprFlops b
  | .lt a b => 1 + exprFlops a + exprFlops b
  | .land a b => 1 + exprFlops a + exprFlops b
  | .load _ i => exprFlops i

/-- Modelled from the spec: statement part of the native FLOP
estimator.  A loop multiplies the cost of its body by its constant
iteration count; a non-constant extent is zero-weighted (the documented
fallback choice); costs sum across siblings. -/
def stmtFlops : Stmt → ℤ
  | .skip => 0
  | .seq a b => stmtFlops a + stmtFlops b
  | .forLoop _ _ ext body =>
      (match evalConst ext with
       | some n => n
       | none => 0) * stmtFlops body
  | .letStmt _ e body => exprFlops e + stmtFlops body
  | .store _ i v => exprFlops i + exprFlops v
  | .evalStmt e => exprFlops e
  | .handleCall _ => 0
  | .block _ body => stmtFlops body
  | .blockInit _ ini body => stmtFlops ini + stmtFlops body
  | .attrStmt _ _ body => stmtFlops body
  | .alloc _ _ body => stmtFlops body

/-- The Python entry point accepts either a TIR fragment or a module. -/
inductive FlopsInput where
  | stmt : Stmt → FlopsInput
  | mod : IRModule → FlopsInput

/-- Modelled from the spec: `_ffi_api.EstimateTIRFlops` is not under
`src/`.  Module costs sum across its functions. -/
def estimate_tir_flops : FlopsInput → ℤ
  | .stmt s => stmtFlops s
  | .mod m => (m.funcs.map (fun p => stmtFlops p.2.body)).sum

/-- A loop of constant extent 8 whose body performs one addition. -/
def flopLoop8 : Stmt :=
  .forLoop varX (.imm 0) (.imm 8)
    (.store 0 (.var varX) (.add (.load 1 (.var varX)) (.load 2 (.var varX))))

/-- Two nested loops of constant extent 4 around one multiplication. -/
def flopNested4 : Stmt :=
  .forLoop varX (.imm 0) (.imm 4)
    (.forLoop varY (.imm 0) (.imm 4)
      (.store 0 (.var varX) (.mul (.load 1 (.var varX)) (.load 2 (.var varY)))))

/-- C5: the FLOP estimator counts a fixed unit cost per arithmetic /
comparison / logical operator and multiplies a loop body's cost by the
loop's constant iteration count: a loop of extent 8 with one addition
estimates to 8, and 4×4 nested loops with one multiplication to 16. -/
theorem estimate_tir_flops_loop_scaling :
    (∀ (v : Var) (mn : PrimExpr) (n : Int) (body : Stmt),
        stmtFlops (.forLoop v mn (.imm n) body) = n * stmtFlops body) ∧
    estimate_tir_flops (.stmt flopLoop8) = 8 ∧
    estimate_tir_flops (.stmt flopNested4) = 16 := by
  exact ⟨fun v mn n body => by simp [stmtFlops, evalConst], by decide, by decide⟩

/-- The blocks of a statement that carry an init sub-statement, in
depth-first order. -/
def initBlocks : Stmt → List Stmt
  | .skip => []
  | .seq a b => initBlocks a ++ initBlocks b
  | .forLoop _ _ _ body => initBlocks body
  | .letStmt _ _ body => initBlocks body
  | .store _ _ _ => []
  | .evalStmt _ => []
  | .handleCall _ => []
  | .block _ body => initBlocks body
  | .blockInit ivs ini body =>
      Stmt.blockInit ivs ini body :: (initBlocks ini ++ initBlocks body)
  | .attrStmt _ _ body => initBlocks body
  | .alloc _ _ body => initBlocks body

/-- All init-carrying blocks of a module, across its functions. -/
def anchorCandidates (m : IRModule) : List Stmt :=
  (m.funcs.map (fun p => initBlocks p.2.body)).flatten

/-- One fold step of the anchor search: keep the candidate with the
larger FLOP estimate, the incumbent winning ties. -/
def anchorStep (acc : Option Stmt) (b : Stmt) : Option Stmt :=
  match acc with
  | none => some b
  | some a => if stmtFlops a < stmtFlops b then some b else some a

/-- Modelled from the spec: `_ffi_api.find_anchor_block` is not under
`src/`.  Among all init-carrying blocks of the module, selects one of
maximal FLOP estimate; `none` when no such block exists. -/
def find_anchor_block (m : IRModule) : Option Stmt :=
  (anchorCandidates m).foldl anchorStep none

theorem anchorStep_ne_none (acc : Option Stmt) (b : Stmt) : anchorStep acc b ≠ none := by
  cases acc with
  | none => simp [anchorStep]
  | some a =>
      simp only [anchorStep]
      split <;> simp

theorem anchorStep_origin {acc : Option Stmt} {x y : Stmt}
    (h : anchorStep acc x = some y) : y = x ∨ acc = some y := by
  cases acc with
  | none => simp [anchorStep] at h; exact Or.inl h.symm
  | some a =>
      simp only [anchorStep] at h
      split at h
      · exact Or.inl (Option.some_injective _ h).symm
      · exact Or.inr h

theorem anchorStep_le_new {acc : Option Stmt} {x y : Stmt}
    (h : anchorStep acc x = some y) : stmtFlops x ≤ stmtFlops y := by
  cases acc with
  | none =>
      simp [anchorStep] at h
      rw [h]
  | some a =>
      simp only [anchorStep] at h
      split at h <;> rename_i hlt
      · rw [← Option.some_injective _ h]
      · rw [← Option.some_injective _ h]
        exact le_of_not_lt hlt

theorem anchorStep_le_old {a : Stmt} {x y : Stmt}
    (h : anchorStep (some a) x = some y) : stmtFlops a ≤ stmtFlops y := by
  simp only [anchorStep] at h
  split at h <;> rename_i hlt
  · rw [← Option.some_injective _ h]
    exact le_of_lt hlt
  · rw [← Option.some_injective _ h]

theorem foldl_anchorStep_spec (l : List Stmt) :
    ∀ (acc : Option Stmt) (b : Stmt), l.foldl anchorStep acc = some b →
      (acc = some b ∨ b ∈ l) ∧ (∀ c ∈ l, stmtFlops c ≤ stmtFlops b) ∧
      (∀ a, acc = some a → stmtFlops a ≤ stmtFlops b) := by
  induction l with
  | nil =>
      intro acc b h
      simp only [List.foldl_nil] at h
      exact ⟨Or.inl h, by simp, fun a ha => by rw [h] at ha; rw [Option.some_injective _ ha]⟩
  | cons x xs ih =>
      intro acc b h
      simp only [List.foldl_cons] at h
      obtain ⟨hmem, hmax, hacc⟩ := ih (anchorStep acc x) b h
      cases hstep : anchorStep acc x with
      | none => exact absurd hstep (anchorStep_ne_none acc x)
      | some y =>
          have hxy : stmtFlops x ≤ stmtFlops y := anchorStep_le_new hstep
          have hyb : stmtFlops y ≤ stmtFlops b := hacc y hstep
          refine ⟨?_, ?_, ?_⟩
          · rcases hmem with hm | hm
            · rw [hstep] at hm
              have hy : y = b := Option.some_injective _ hm
              rcases anchorStep_origin hstep with h1 | h1
              · exact Or.inr (by rw [← hy, h1]; exact List.mem_cons_self x xs)
              · exact Or.inl (by rw [← hy]; exact h1)
            · exact Or.inr (List.mem_cons_of_mem x hm)
          · intro c hc
            rcases List.mem_cons.mp hc with hc | hc
            · rw [hc]; exact le_trans hxy hyb
            · exact hmax c hc
          · intro a ha
            rw [ha] at hstep
            exact le_trans (anchorStep_le_old hstep) hyb

theorem foldl_anchorStep_none (l : List Stmt) :
    ∀ acc : Option Stmt, l.foldl anchorStep acc = none → acc = none ∧ l = [] := by
  induction l with
  | nil => intro acc h; exact ⟨h, rfl⟩
  | cons x xs ih =>
      intro acc h
      simp only [List.foldl_cons] at h
      exact absurd (ih _ h).1 (anchorStep_ne_none acc x)

/-- A reduction block whose FLOP estimate is 10. -/
def anchorBlock10 : Stmt :=
  .blockInit [varX] .skip
    (.forLoop varX (.imm 0) (.imm 10)
      (.store 0 (.var varX) (.add (.load 1 (.var varX)) (.imm 1))))

/-- A reduction block whose FLOP estimate is 100. -/
def anchorBlock100 : Stmt :=
  .blockInit [varY] .skip
    (.forLoop varY (.imm 0) (.imm 100)
      (.store 2 (.var varY) (.add (.load 3 (.var varY)) (.imm 1))))

/-- A module containing init-carrying blocks of estimates 10 and 100. -/
def anchorExampleMod : IRModule :=
  { funcs := [("main", { params := [], body := .seq anchorBlock10 anchorBlock100 })] }

/-- A module whose only function has no init-carrying block. -/
def noAnchorMod : IRModule :=
  { funcs := [("main", { params := [], body := flopLoop8 })] }

/-- C6: `find_anchor_block` selects, among the module's init-carrying
blocks, one of maximal FLOP estimate — between estimates 10 and 100 it
selects the 100 block — and returns `none`, as a normal outcome, exactly
when the module has no init-carrying block. -/
theorem find_anchor_block_max_flops :
    (∀ m : IRModule, find_anchor_block m = none ↔ anchorCandidates m = []) ∧
    (∀ (m : IRModule) (b : Stmt), find_anchor_block m = some b →
        b ∈ anchorCandidates m ∧
        ∀ c ∈ anchorCandidates m, stmtFlops c ≤ stmtFlops b) ∧
    find_anchor_block anchorExampleMod = some anchorBlock100 ∧
    find_anchor_block noAnchorMod = none := by
  refine ⟨?_, ?_, by decide, by decide⟩
  · intro m
    constructor
    · intro h
      exact (foldl_anchorStep_none _ _ h).2
    · intro h
      rw [find_anchor_block, h]
      rfl
  · intro m b h
    obtain ⟨hmem, hmax, _⟩ := foldl_anchorStep_spec _ _ _ h
    rcases hmem with hm | hm
    · exact absurd hm.symm (Option.some_ne_none b)
    · exact ⟨hm, hmax⟩

/-- C6 witness: the claim theorem applied to the concrete module with
blocks of estimates 10 and 100. -/
theorem find_anchor_block_max_flops_witness :
    anchorBlock100 ∈ anchorCandidates anchorExampleMod ∧
      ∀ c ∈ anchorCandidates anchorExampleMod,
        stmtFlops c ≤ stmtFlops anchorBlock100 :=
  find_anchor_block_max_flops.2.1 anchorExampleMod anchorBlock100
    find_anchor_block_max_flops.2.2.1

/-- Identities of the variables referenced by an expression, in
depth-first encounter order (with repeats). -/
def exprVarIds : PrimExpr → List Nat
  | .var v => [v.id]
  | .imm _ => []
  | .add a b => exprVarIds a ++ exprVarIds b
  | .sub a b => exprVarIds a ++ exprVarIds b
  | .mul a b => exprVarIds a ++ exprVarIds b
  | .lt a b => exprVarIds a ++ exprVarIds b
  | .land a b => exprVarIds a ++ exprVarIds b
  | .load _ i => exprVarIds i

/-- Modelled from the spec: expression walk of the native
`_ffi_api.UndefinedVars` (not under `src/`).  `d` is the set of
currently-defined identities, `acc` the undefined variables found so
far; a use is appended iff neither defined nor already recorded. -/
def undefExpr (d : List Nat) : PrimExpr → List Var → List Var
  | .var v, acc =>
      if d.contains v.id || acc.any (fun w => w.id == v.id) then acc else acc ++ [v]
  | .imm _, acc => acc
  | .add a b, acc => undefExpr d b (undefExpr d a acc)
  | .sub a b, acc => undefExpr d b (undefExpr d a acc)
  | .mul a b, acc => undefExpr d b (undefExpr d a acc)
  | .lt a b, acc => undefExpr d b (undefExpr d a acc)
  | .land a b, acc => undefExpr d b (undefExpr d a acc)
  | .load _ i, acc => undefExpr d i acc

/-- Modelled from the spec: statement walk of the native
`_ffi_api.UndefinedVars`.  Loop and block walks accumulate their bound
variables into the defined set for their bodies. -/
def undefStmt : Stmt → List Nat → List Var → List Var
  | .skip, _, acc => acc
  | .seq a b, d, acc => undefStmt b d (undefStmt a d acc)
  | .forLoop v mn ex body, d, acc =>
      undefStmt body (v.id :: d) (undefExpr d ex (undefExpr d mn acc))
  | .letStmt v e body, d, acc => undefStmt body (v.id :: d) (undefExpr d e acc)
  | .store _ i v, d, acc => undefExpr d v (undefExpr d i acc)
  | .evalStmt e, d, acc => undefExpr d e acc
  | .handleCall _, _, acc => acc
  | .block ivs body, d, acc => undefStmt body (ivs.map Var.id ++ d) acc
  | .blockInit ivs ini body, d, acc =>
      undefStmt body (ivs.map Var.id ++ d)
        (undefStmt ini (ivs.map Var.id ++ d) acc)
  | .attrStmt _ _ body, d, acc => undefStmt body d acc
  | .alloc _ _ body, d, acc => undefStmt body d acc

/-- The Python entry point accepts either a statement or an expression. -/
inductive Node where
  | stmt : Stmt → Node
  | expr : PrimExpr → Node

/-- Modelled from the spec: the native `_ffi_api.UndefinedVars` entry,
seeded with the caller-supplied externally-defined variables. -/
def UndefinedVars (n : Node) (defs : List Var) : List Var :=
  match n with
  | .stmt s => undefStmt s (defs.map Var.id) []
  | .expr e => undefExpr (defs.map Var.id) e []

/-- Python truthiness defaulting `defs = defs or []` from the source
(`analysis.py` line 242): `None` and the empty list both collapse to the
empty list. -/
def pyOrEmptyList (defs : Option (List Var)) : List Var :=
  match defs with
  | none => []
  | some l => if l.isEmpty then [] else l

/-- Embedded from the source (`analysis.py` lines 226-243): the Python
shim normalises the optional `defs` argument and delegates to the
native `UndefinedVars`. -/
def undefined_vars (node : Node) (defs : Option (List Var)) : List Var :=
  UndefinedVars node (pyOrEmptyList defs)

theorem undefExpr_sub (e : PrimExpr) (d : List Nat) (acc : List Var) :
    acc ⊆ undefExpr d e acc := by
  induction e generalizing acc with
  | var v =>
      simp only [undefExpr]
      split
      · exact fun _ h => h
      · exact fun _ h => List.mem_append_left _ h
  | imm n => exact fun _ h => h
  | add a b ha hb => exact fun _ h => hb _ (ha _ h)
  | sub a b ha hb => exact fun _ h => hb _ (ha _ h)
  | mul a b ha hb => exact fun _ h => hb _ (ha _ h)
  | lt a b ha hb => exact fun _ h => hb _ (ha _ h)
  | land a b ha hb => exact fun _ h => hb _ (ha _ h)
  | load n i hi => exact fun _ h => hi _ h

theorem undefExpr_mem {e : PrimExpr} {d : List Nat} {acc : List Var} {v : Var}
    (h : v ∈ undefExpr d e acc) :
    v ∈ acc ∨ (v.id ∈ exprVarIds e ∧ v.id ∉ d) := by
  induction e generalizing acc with
  | var w =>
      simp only [undefExpr] at h
      split at h <;> rename_i hcond
      · exact Or.inl h
      · rcases List.mem_append.mp h with h1 | h1
        · exact Or.inl h1
        · simp only [List.mem_singleton] at h1
          subst h1
          rw [Bool.or_eq_true, not_or] at hcond
          exact Or.inr ⟨by simp [exprVarIds], by simpa using hcond.1⟩
  | imm n => exact Or.inl h
  | add a b ha hb =>
      rcases hb h with h1 | h1
      · rcases ha h1 with h2 | h2
        · exact Or.inl h2
        · exact Or.inr ⟨by simp [exprVarIds, h2.1], h2.2⟩
      · exact Or.inr ⟨by simp [exprVarIds, h1.1], h1.2⟩
  | sub a b ha hb =>
      rcases hb h with h1 | h1
      · rcases ha h1 with h2 | h2
        · exact Or.inl h2
        · exact Or.inr ⟨by simp [exprVarIds, h2.1], h2.2⟩
      · exact Or.inr ⟨by simp [exprVarIds, h1.1], h1.2⟩
  | mul a b ha hb =>
      rcases hb h with h1 | h1
      · rcases ha h1 with h2 | h2
        · exact Or.inl h2
        · exact Or.inr ⟨by simp [exprVarIds, h2.1], h2.2⟩
      · exact Or.inr ⟨by simp [exprVarIds, h1.1], h1.2⟩
  | lt a b ha hb =>
      rcases hb h with h1 | h1
      · rcases ha h1 with h2 | h2
        · exact Or.inl h2
        · exact Or.inr ⟨by simp [exprVarIds, h2.1], h2.2⟩
      · exact Or.inr ⟨by simp [exprVarIds, h1.1], h1.2⟩
  | land a b ha hb =>
      rcases hb h with h1 | h1
      · rcases ha h1 with h2 | h2
        · exact Or.inl h2
        · exact Or.inr ⟨by simp [exprVarIds, h2.1], h2.2⟩
      · exact Or.inr ⟨by simp [exprVarIds, h1.1], h1.2⟩
  | load n i hi =>
      rcases hi h with h1 | h1
      · exact Or.inl h1
      · exact Or.inr ⟨by simpa [exprVarIds] using h1.1, h1.2⟩

theorem undefExpr_nodup {e : PrimExpr} {d : List Nat} {acc : List Var}
    (h : acc.Pairwise fun a b => a.id ≠ b.id) :
    (undefExpr d e acc).Pairwise fun a b => a.id ≠ b.id := by
  induction e generalizing acc with
  | var v =>
      simp only [undefExpr]
      split <;> rename_i hcond
      · exact h
      · rw [Bool.or_eq_true, not_or] at hcond
        rw [List.pairwise_append]
        refine ⟨h, List.pairwise_singleton _ _, ?_⟩
        intro a ha b hb
        simp only [List.mem_singleton] at hb
        subst hb
        have := hcond.2
        simp only [List.any_eq_true, beq_iff_eq, not_exists] at this
        push_neg at this
        exact this a ha
  | imm n => exact h
  | add a b ha hb => exact hb (ha h)
  | sub a b ha hb => exact hb (ha h)
  | mul a b ha hb => exact hb (ha h)
  | lt a b ha hb => exact hb (ha h)
  | land a b ha hb => exact hb (ha h)
  | load n i hi => exact hi h

theorem undefExpr_complete {e : PrimExpr} {d : List Nat} {i : Nat}
    (acc : List Var) (hu : i ∈ exprVarIds e) (hd : i ∉ d) :
    ∃ w ∈ undefExpr d e acc, w.id = i := by
  induction e generalizing acc with
  | var v =>
      simp only [exprVarIds, List.mem_singleton] at hu
      subst hu
      simp only [undefExpr]
      split <;> rename_i hcond
      · rw [Bool.or_eq_true] at hcond
        rcases hcond with hc | hc
        · exact absurd (by simpa using hc) hd
        · simp only [List.any_eq_true, beq_iff_eq] at hc
          exact hc
      · exact ⟨v, List.mem_append_right _ (List.mem_singleton.mpr rfl), rfl⟩
  | imm n => simp [exprVarIds] at hu
  | add a b ha hb =>
      rcases List.mem_append.mp hu with h1 | h1
      · obtain ⟨w, hw, hwi⟩ := ha acc h1
        exact ⟨w, undefExpr_sub b d _ hw, hwi⟩
      · exact hb _ h1
  | sub a b ha hb =>
      rcases List.mem_append.mp hu with h1 | h1
      · obtain ⟨w, hw, hwi⟩ := ha acc h1
        exact ⟨w, undefExpr_sub b d _ hw, hwi⟩
      · exact hb _ h1
  | mul a b ha hb =>
      rcases List.mem_append.mp hu with h1 | h1
      · obtain ⟨w, hw, hwi⟩ := ha acc h1
        exact ⟨w, undefExpr_sub b d _ hw, hwi⟩
      · exact hb _ h1
  | lt a b ha hb =>
      rcases List.mem_append.mp hu with h1 | h1
      · obtain ⟨w, hw, hwi⟩ := ha acc h1
        exact ⟨w, undefExpr_sub b d _ hw, hwi⟩
      · exact hb _ h1
  | land a b ha hb =>
      rcases List.mem_append.mp hu with h1 | h1
      · obtain ⟨w, hw, hwi⟩ := ha acc h1
        exact ⟨w, undefExpr_sub b d _ hw, hwi⟩
      · exact hb _ h1
  | load n i hi => exact hi acc hu

theorem undefStmt_mem {s : Stmt} :
    ∀ {d : List Nat} {acc : List Var} {v : Var},
      v ∈ undefStmt s d acc → v ∈ acc ∨ v.id ∉ d := by
  induction s with
  | skip => exact fun h => Or.inl h
  | seq a b ha hb =>
      intro d acc v h
      rcases hb h with h1 | h1
      · exact ha h1
      · exact Or.inr h1
  | forLoop w mn ex body hbody =>
      intro d acc v h
      rcases hbody h with h1 | h1
      · rcases undefExpr_mem h1 with h2 | h2
        · rcases undefExpr_mem h2 with h3 | h3
          · exact Or.inl h3
          · exact Or.inr h3.2
        · exact Or.inr h2.2
      · exact Or.inr fun hc => h1 (List.mem_cons_of_mem _ hc)
  | letStmt w e body hbody =>
      intro d acc v h
      rcases hbody h with h1 | h1
      · rcases undefExpr_mem h1 with h2 | h2
        · exact Or.inl h2
        · exact Or.inr h2.2
      · exact Or.inr fun hc => h1 (List.mem_cons_of_mem _ hc)
  | store n i val =>
      intro d acc v h
      rcases undefExpr_mem h with h1 | h1
      · rcases undefExpr_mem h1 with h2 | h2
        · exact Or.inl h2
        · exact Or.inr h2.2
      · exact Or.inr h1.2
  | evalStmt e =>
      intro d acc v h
      rcases undefExpr_mem h with h1 | h1
      · exact Or.inl h1
      · exact Or.inr h1.2
  | handleCall n => exact fun h => Or.inl h
  | block ivs body hbody =>
      intro d acc v h
      rcases hbody h with h1 | h1
      · exact Or.inl h1
      · exact Or.inr fun hc => h1 (List.mem_append_right _ hc)
  | blockInit ivs ini body hini hbody =>
      intro d acc v h
      rcases hbody h with h1 | h1
      · rcases hini h1 with h2 | h2
        · exact Or.inl h2
        · exact Or.inr fun hc => h2 (List.mem_append_right _ hc)
      · exact Or.inr fun hc => h1 (List.mem_append_right _ hc)
  | attrStmt k n body hbody =>
      intro d acc v h
      exact hbody h
  | alloc sc n body hbody =>
      intro d acc v h
      exact hbody h

theorem undefStmt_nodup {s : Stmt} :
    ∀ {d : List Nat} {acc : List Var},
      (acc.Pairwise fun a b => a.id ≠ b.id) →
      (undefStmt s d acc).Pairwise fun a b => a.id ≠ b.id := by
  induction s with
  | skip => exact fun h => h
  | seq a b ha hb => exact fun h => hb (ha h)
  | forLoop w mn ex body hbody =>
      exact fun h => hbody (undefExpr_nodup (undefExpr_nodup h))
  | letStmt w e body hbody => exact fun h => hbody (undefExpr_nodup h)
  | store n i val => exact fun h => undefExpr_nodup (undefExpr_nodup h)
  | evalStmt e => exact fun h => undefExpr_nodup h
  | handleCall n => exact fun h => h
  | block ivs body hbody => exact fun h => hbody h
  | blockInit ivs ini body hini hbody => exact fun h => hbody (hini h)
  | attrStmt k n body hbody => exact fun h => hbody h
  | alloc sc n body hbody => exact fun h => hbody h

/-- Third variable of the examples. -/
def varZ : Var := ⟨2, "z"⟩

/-- Fourth variable of the examples. -/
def varW : Var := ⟨3, "w"⟩

/-- A loop binding `x` locally whose extent uses `z` and whose body
uses the bound `x` and the free `w`. -/
def undefExampleStmt : Stmt :=
  .forLoop varX (.imm 0) (.var varZ) (.store 0 (.var varX) (.var varW))

/-- The variable uses of an expression, in depth-first order (with
repeats). -/
def useSeqE : PrimExpr → List Var
  | .var v => [v]
  | .imm _ => []
  | .add a b => useSeqE a ++ useSeqE b
  | .sub a b => useSeqE a ++ useSeqE b
  | .mul a b => useSeqE a ++ useSeqE b
  | .lt a b => useSeqE a ++ useSeqE b
  | .land a b => useSeqE a ++ useSeqE b
  | .load _ i => useSeqE i

/-- Each use of an expression annotated with the defined identities `d`
in effect at its occurrence. -/
def exprScopedUses (e : PrimExpr) (d : List Nat) : List (Var × List Nat) :=
  (useSeqE e).map fun v => (v, d)

/-- Modelled from the spec: the flat depth-first stream of variable
uses of a statement, each annotated with the identities defined at its
occurrence — the caller-supplied seed plus the loop, let and block
iteration variables bound around that use. -/
def scopedUseSeq : Stmt → List Nat → List (Var × List Nat)
  | .skip, _ => []
  | .seq a b, d => scopedUseSeq a d ++ scopedUseSeq b d
  | .forLoop v mn ex body, d =>
      exprScopedUses mn d ++ exprScopedUses ex d ++ scopedUseSeq body (v.id :: d)
  | .letStmt v e body, d => exprScopedUses e d ++ scopedUseSeq body (v.id :: d)
  | .store _ i v, d => exprScopedUses i d ++ exprScopedUses v d
  | .evalStmt e, d => exprScopedUses e d
  | .handleCall _, _ => []
  | .block ivs body, d => scopedUseSeq body (ivs.map Var.id ++ d)
  | .blockInit ivs ini body, d =>
      scopedUseSeq ini (ivs.map Var.id ++ d)
        ++ scopedUseSeq body (ivs.map Var.id ++ d)
  | .attrStmt _ _ body, d => scopedUseSeq body d
  | .alloc _ _ body, d => scopedUseSeq body d

/-- The uses of an annotated stream that are undefined at their own
occurrence, in stream order (with repeats). -/
def undefStream (l : List (Var × List Nat)) : List Var :=
  (l.filter fun p => !(p.2.contains p.1.id)).map fun p => p.1

/-- Deduplicate a variable stream by identity, keeping first
occurrences, appending after the already-collected `acc`. -/
def dedupFirstVar : List Var → List Var → List Var
  | [], acc => acc
  | v :: l, acc =>
      if acc.any (fun w => w.id == v.id) then dedupFirstVar l acc
      else dedupFirstVar l (acc ++ [v])

theorem dedupFirstVar_append : ∀ (l1 l2 acc : List Var),
    dedupFirstVar (l1 ++ l2) acc = dedupFirstVar l2 (dedupFirstVar l1 acc) := by
  intro l1
  induction l1 with
  | nil => intro l2 acc; rfl
  | cons v l ih =>
      intro l2 acc
      rw [List.cons_append, dedupFirstVar, dedupFirstVar]
      split <;> exact ih _ _

theorem undefStream_append (l1 l2 : List (Var × List Nat)) :
    undefStream (l1 ++ l2) = undefStream l1 ++ undefStream l2 := by
  simp [undefStream, List.filter_append]

theorem undefExpr_eq_ref : ∀ (e : PrimExpr) (d : List Nat) (acc : List Var),
    undefExpr d e acc = dedupFirstVar (undefStream (exprScopedUses e d)) acc := by
  intro e
  induction e with
  | var v =>
      intro d acc
      simp only [undefExpr]
      cases hc : d.contains v.id with
      | false =>
          have hmem : v.id ∉ d := by simpa using hc
          have hstream : undefStream (exprScopedUses (.var v) d) = [v] := by
            simp [undefStream, exprScopedUses, useSeqE, hmem]
          rw [hstream]
          simp [dedupFirstVar, hc]
      | true =>
          have hmem : v.id ∈ d := by simpa using hc
          have hstream : undefStream (exprScopedUses (.var v) d) = [] := by
            simp [undefStream, exprScopedUses, useSeqE, hmem]
          rw [hstream]
          simp [dedupFirstVar, hc]
  | imm n => intro d acc; rfl
  | add a b ha hb =>
      intro d acc
      have hsplit : exprScopedUses (.add a b) d = exprScopedUses a d ++ exprScopedUses b d := by
        simp [exprScopedUses, useSeqE]
      simp only [undefExpr, hsplit, undefStream_append, dedupFirstVar_append, ha, hb]
  | sub a b ha hb =>
      intro d acc
      have hsplit : exprScopedUses (.sub a b) d = exprScopedUses a d ++ exprScopedUses b d := by
        simp [exprScopedUses, useSeqE]
      simp only [undefExpr, hsplit, undefStream_append, dedupFirstVar_append, ha, hb]
  | mul a b ha hb =>
      intro d acc
      have hsplit : exprScopedUses (.mul a b) d = exprScopedUses a d ++ exprScopedUses b d := by
        simp [exprScopedUses, useSeqE]
      simp only [undefExpr, hsplit, undefStream_append, dedupFirstVar_append, ha, hb]
  | lt a b ha hb =>
      intro d acc
      have hsplit : exprScopedUses (.lt a b) d = exprScopedUses a d ++ exprScopedUses b d := by
        simp [exprScopedUses, useSeqE]
      simp only [undefExpr, hsplit, undefStream_append, dedupFirstVar_append, ha, hb]
  | land a b ha hb =>
      intro d acc
      have hsplit : exprScopedUses (.land a b) d = exprScopedUses a d ++ exprScopedUses b d := by
        simp [exprScopedUses, useSeqE]
      simp only [undefExpr, hsplit, undefStream_append, dedupFirstVar_append, ha, hb]
  | load n i hi =>
      intro d acc
      simp only [undefExpr]
      have hsplit : exprScopedUses (.load n i) d = exprScopedUses i d := by
        simp [exprScopedUses, useSeqE]
      rw [hsplit]
      exact hi d acc

theorem undefStmt_eq_ref : ∀ (s : Stmt) (d : List Nat) (acc : List Var),
    undefStmt s d acc = dedupFirstVar (undefStream (scopedUseSeq s d)) acc := by
  intro s
  induction s with
  | skip => intro d acc; rfl
  | seq a b ha hb =>
      intro d acc
      simp only [undefStmt, scopedUseSeq, undefStream_append, dedupFirstVar_append, ha, hb]
  | forLoop v mn ex body hbody =>
      intro d acc
      simp only [undefStmt, scopedUseSeq, undefStream_append, dedupFirstVar_append,
        undefExpr_eq_ref, hbody]
  | letStmt v e body hbody =>
      intro d acc
      simp only [undefStmt, scopedUseSeq, undefStream_append, dedupFirstVar_append,
        undefExpr_eq_ref, hbody]
  | store b i v =>
      intro d acc
      simp only [undefStmt, scopedUseSeq, undefStream_append, dedupFirstVar_append,
        undefExpr_eq_ref]
  | evalStmt e =>
      intro d acc
      simp only [undefStmt, scopedUseSeq, undefExpr_eq_ref]
  | handleCall n => intro d acc; rfl
  | block ivs body hbody =>
      intro d acc
      simp only [undefStmt, scopedUseSeq, hbody]
  | blockInit ivs ini body hini hbody =>
      intro d acc
      simp only [undefStmt, scopedUseSeq, undefStream_append, dedupFirstVar_append,
        hini, hbody]
  | attrStmt k n body hbody =>
      intro d acc
      simp only [undefStmt, scopedUseSeq, hbody]
  | alloc sc n body hbody =>
      intro d acc
      simp only [undefStmt, scopedUseSeq, hbody]

theorem dedupFirstVar_split : ∀ (l acc : List Var),
    ∃ t, dedupFirstVar l acc = acc ++ t ∧ List.Sublist t l := by
  intro l
  induction l with
  | nil => intro acc; exact ⟨[], (List.append_nil acc).symm, List.nil_sublist _⟩
  | cons v l ih =>
      intro acc
      rw [dedupFirstVar]
      split
      · obtain ⟨t, ht, hs⟩ := ih acc
        exact ⟨t, ht, hs.cons _⟩
      · obtain ⟨t, ht, hs⟩ := ih (acc ++ [v])
        refine ⟨v :: t, ?_, hs.cons₂ _⟩
        rw [ht, List.append_assoc]
        rfl

theorem dedupFirstVar_nodup : ∀ (l acc : List Var),
    ((acc.map Var.id).Nodup) → (((dedupFirstVar l acc).map Var.id).Nodup) := by
  intro l
  induction l with
  | nil => intro acc h; exact h
  | cons v l ih =>
      intro acc h
      rw [dedupFirstVar]
      split <;> rename_i hc
      · exact ih acc h
      · refine ih _ ?_
        rw [List.map_append, List.nodup_append]
        refine ⟨h, by simp, ?_⟩
        intro i hi hmem
        simp only [List.map_cons, List.map_nil, List.mem_singleton] at hmem
        obtain ⟨w, hw, hwid⟩ := List.mem_map.mp hi
        apply hc
        refine List.any_eq_true.mpr ⟨w, hw, ?_⟩
        simp [hwid, hmem]

theorem dedupFirstVar_first : ∀ (l acc : List Var) (v : Var),
    v ∈ dedupFirstVar l acc →
      v ∈ acc ∨ ((acc.any fun w => w.id == v.id) = false ∧
        l.find? (fun w => w.id == v.id) = some v) := by
  intro l
  induction l with
  | nil => intro acc v h; exact Or.inl h
  | cons u l ih =>
      intro acc v h
      rw [dedupFirstVar] at h
      split at h <;> rename_i hc
      · rcases ih acc v h with h1 | ⟨h2a, h2b⟩
        · exact Or.inl h1
        · have hne : (u.id == v.id) = false := by
            cases hx : (u.id == v.id) with
            | false => rfl
            | true =>
                exfalso
                have hid : u.id = v.id := by simpa using hx
                rw [← hid] at h2a
                rw [hc] at h2a
                exact absurd h2a (by decide)
          refine Or.inr ⟨h2a, ?_⟩
          rw [List.find?_cons_of_neg _ (by simp [hne])]
          exact h2b
      · rcases ih _ v h with h1 | ⟨h2a, h2b⟩
        · rcases List.mem_append.mp h1 with hx | hx
          · exact Or.inl hx
          · simp only [List.mem_singleton] at hx
            refine Or.inr ⟨?_, ?_⟩
            · rw [hx]
              simpa using hc
            · rw [List.find?_cons_of_pos _ (by simp [hx])]
              rw [hx]
        · have hA : (acc.any fun w => w.id == v.id) = false := by
            cases hx : (acc.any fun w => w.id == v.id) with
            | false => rfl
            | true =>
                exfalso
                have hT : ((acc ++ [u]).any fun w => w.id == v.id) = true := by
                  rw [List.any_append, hx]
                  rfl
                rw [hT] at h2a
                exact absurd h2a (by decide)
          have hB : (u.id == v.id) = false := by
            cases hx : (u.id == v.id) with
            | false => rfl
            | true =>
                exfalso
                have hT : ((acc ++ [u]).any fun w => w.id == v.id) = true := by
                  rw [List.any_append]
                  have hone : (List.any [u] fun w => w.id == v.id) = true := by
                    simp [hx]
                  rw [hone, Bool.or_true]
                rw [hT] at h2a
                exact absurd h2a (by decide)
          refine Or.inr ⟨hA, ?_⟩
          rw [List.find?_cons_of_neg _ (by simp [hB])]
          exact h2b

theorem dedupFirstVar_complete : ∀ (l acc : List Var) (w : Var), w ∈ l →
    ∃ v ∈ dedupFirstVar l acc, v.id = w.id := by
  intro l
  induction l with
  | nil => intro acc w h; simp at h
  | cons u l ih =>
      intro acc w h
      rw [dedupFirstVar]
      split <;> rename_i hc
      · rcases List.mem_cons.mp h with h1 | h1
        · obtain ⟨a, ha, hid⟩ := List.any_eq_true.mp hc
          obtain ⟨t, ht, _⟩ := dedupFirstVar_split l acc
          refine ⟨a, by rw [ht]; exact List.mem_append_left _ ha, ?_⟩
          have haid : a.id = u.id := by simpa using hid
          rw [haid, h1]
        · exact ih acc w h1
      · rcases List.mem_cons.mp h with h1 | h1
        · obtain ⟨t, ht, _⟩ := dedupFirstVar_split l (acc ++ [u])
          refine ⟨u, ?_, by rw [h1]⟩
          rw [ht]
          exact List.mem_append_left _ (List.mem_append_right _ (by simp))
        · exact ih _ w h1

/-- C7: `undefined_vars` returns exactly the variables used but not in
the defined set in effect at their use (the caller-supplied set plus
the locally bound variables accumulated during the walk), in
first-encounter order and deduplicated by identity.  Formalised: the
walker equals, for every statement and expression, the two-phase
reference — flatten the scoped depth-first use stream, keep the uses
undefined at their occurrence, deduplicate by identity keeping first
occurrences — and that reference is exact: a sublist of the undefined
use stream (so in stream order), with pairwise-distinct identities,
each entry the stream's first use of its identity, and every undefined
use represented.  With `defs = [x]` the expression `x + y` yields
`[y]`, and a loop binding `x` reports only the free `z` and `w`, in
encounter order. -/
theorem undefined_vars_exact_first_encounter :
    (∀ (s : Stmt) (defs : List Var),
        UndefinedVars (.stmt s) defs =
          dedupFirstVar (undefStream (scopedUseSeq s (defs.map Var.id))) []) ∧
    (∀ (e : PrimExpr) (defs : List Var),
        UndefinedVars (.expr e) defs =
          dedupFirstVar (undefStream (exprScopedUses e (defs.map Var.id))) []) ∧
    (∀ l : List (Var × List Nat),
        List.Sublist (dedupFirstVar (undefStream l) []) (undefStream l) ∧
        (((dedupFirstVar (undefStream l) []).map Var.id).Nodup) ∧
        (∀ v ∈ dedupFirstVar (undefStream l) [],
            (undefStream l).find? (fun w => w.id == v.id) = some v) ∧
        (∀ w ∈ undefStream l,
            ∃ v ∈ dedupFirstVar (undefStream l) [], v.id = w.id)) ∧
    (∀ (e : PrimExpr) (defs : List Var),
        (∀ v ∈ UndefinedVars (.expr e) defs,
            v.id ∈ exprVarIds e ∧ v.id ∉ defs.map Var.id) ∧
        (∀ i ∈ exprVarIds e, i ∉ defs.map Var.id →
            ∃ w ∈ UndefinedVars (.expr e) defs, w.id = i)) ∧
    (∀ (s : Stmt) (defs : List Var),
        ∀ v ∈ UndefinedVars (.stmt s) defs, v.id ∉ defs.map Var.id) ∧
    undefined_vars (.expr (.add (.var varX) (.var varY))) (some [varX]) = [varY] ∧
    undefined_vars (.stmt undefExampleStmt) none = [varZ, varW] := by
  refine ⟨?_, ?_, ?_, ?_, ?_, by decide, by decide⟩
  · intro s defs
    exact undefStmt_eq_ref s _ []
  · intro e defs
    exact undefExpr_eq_ref e _ []
  · intro l
    refine ⟨?_, dedupFirstVar_nodup _ [] (by simp), ?_, ?_⟩
    · obtain ⟨t, ht, hs⟩ := dedupFirstVar_split (undefStream l) []
      rw [ht]
      simpa using hs
    · intro v hv
      rcases dedupFirstVar_first _ [] v hv with h1 | ⟨_, h2⟩
      · simp at h1
      · exact h2
    · intro w hw
      exact dedupFirstVar_complete _ [] w hw
  · intro e defs
    refine ⟨?_, ?_⟩
    · intro v hv
      rcases undefExpr_mem hv with h1 | h1
      · simp at h1
      · exact h1
    · intro i hi hd
      exact undefExpr_complete [] hi hd
  · intro s defs v hv
    rcases undefStmt_mem hv with h1 | h1
    · simp at h1
    · exact h1

/-- C7 witness: the claim theorem applied to the concrete loop
statement; the undefined-use stream of its scoped walk contains the
free `z`, and the reference result reports an entry of `z`'s
identity. -/
theorem undefined_vars_exact_first_encounter_witness :
    ∃ v ∈ dedupFirstVar (undefStream (scopedUseSeq undefExampleStmt [])) [],
      v.id = varZ.id :=
  (undefined_vars_exact_first_encounter.2.2.1 (scopedUseSeq undefExampleStmt [])).2.2.2
    varZ (by decide)

/-- C10: calling the Python shim without `defs` (i.e. with `None`)
behaves exactly as supplying the empty list of externally-defined
variables. -/
theorem undefined_vars_default_empty :
    ∀ n : Node, undefined_vars n none = undefined_vars n (some []) :=
  fun _ => rfl

/-- A Python argument to `calculate_allocated_bytes`: a `PrimFunc`, an
`IRModule`, or a value of any other type (carrying the name that
`type(func_or_mod)` would print). -/
inductive PyArg where
  | primFunc : PrimFunc → PyArg
  | irModule : IRModule → PyArg
  | other : String → PyArg

/-- Embedded from the source (`analysis.py` lines 166-188): the type
check `isinstance(func_or_mod, (PrimFunc, IRModule))` runs first and
raises `TypeError` on any other argument; only then is the native
analysis (abstracted as `ffi`) invoked. -/
def calculate_allocated_bytes {α : Type} (ffi : PyArg → α) (arg : PyArg) :
    Except String α :=
  match arg with
  | .other t =>
      .error ("Expected argument to be PrimFunc or IRModule, but received " ++ t)
  | a => .ok (ffi a)

/-- C9: a wrong argument kind makes `calculate_allocated_bytes` raise a
type error immediately — the result is the error for every possible
native analysis `ffi`, so no analysis of the argument is ever begun —
while both accepted kinds are passed through to the analysis. -/
theorem calculate_allocated_bytes_type_error :
    ∀ {α : Type} (ffi ffi2 : PyArg → α) (t : String),
      calculate_allocated_bytes ffi (.other t) =
        .error ("Expected argument to be PrimFunc or IRModule, but received " ++ t) ∧
      calculate_allocated_bytes ffi (.other t) = calculate_allocated_bytes ffi2 (.other t) ∧
      (∀ f : PrimFunc, calculate_allocated_bytes ffi (.primFunc f) = .ok (ffi (.primFunc f))) ∧
      (∀ m : IRModule, calculate_allocated_bytes ffi (.irModule m) = .ok (ffi (.irModule m))) :=
  fun _ _ _ => ⟨rfl, rfl, fun _ => rfl, fun _ => rfl⟩

/-- One per-dimension index range (begin, extent) of an access
footprint; both bounds may be symbolic expressions. -/
structure RegionRange where
  lo : PrimExpr
  ext : PrimExpr
deriving DecidableEq, Repr

/-- A buffer paired with its per-dimension index ranges. -/
structure BufferRegion where
  buffer : Nat
  ranges : List RegionRange
deriving DecidableEq, Repr

/-- Classification of one buffer access. -/
inductive AccessKind where
  | read : AccessKind
  | write : AccessKind
  | opq : AccessKind
deriving DecidableEq, Repr

/-- A single buffer access: its classification and footprint. -/
structure Access where
  kind : AccessKind
  region : BufferRegion
deriving DecidableEq, Repr

/-- Modelled from the spec: buffer accesses performed by an expression
in depth-first order, for the native `GetBlockAccessRegion` (not under
`src/`).  A load of a buffer in the buffer-var map is a read access. -/
def exprAccesses (bvm : List Nat) : PrimExpr → List Access
  | .var _ => []
  | .imm _ => []
  | .add a b => exprAccesses bvm a ++ exprAccesses bvm b
  | .sub a b => exprAccesses bvm a ++ exprAccesses bvm b
  | .mul a b => exprAccesses bvm a ++ exprAccesses bvm b
  | .lt a b => exprAccesses bvm a ++ exprAccesses bvm b
  | .land a b => exprAccesses bvm a ++ exprAccesses bvm b
  | .load b i =>
      (if bvm.contains b then [⟨.read, ⟨b, [⟨i, .imm 1⟩]⟩⟩] else [])
        ++ exprAccesses bvm i

/-- Modelled from the spec: buffer accesses performed by a statement in
depth-first order.  A store is a write access, an opaque handle passing
an opaque access. -/
def stmtAccesses (bvm : List Nat) : Stmt → List Access
  | .skip => []
  | .seq a b => stmtAccesses bvm a ++ stmtAccesses bvm b
  | .forLoop _ mn ex body =>
      exprAccesses bvm mn ++ exprAccesses bvm ex ++ stmtAccesses bvm body
  | .letStmt _ e body => exprAccesses bvm e ++ stmtAccesses bvm body
  | .store b i v =>
      (if bvm.contains b then [⟨.write, ⟨b, [⟨i, .imm 1⟩]⟩⟩] else [])
        ++ exprAccesses bvm i ++ exprAccesses bvm v
  | .evalStmt e => exprAccesses bvm e
  | .handleCall b => if bvm.contains b then [⟨.opq, ⟨b, []⟩⟩] else []
  | .block _ body => stmtAccesses bvm body
  | .blockInit _ ini body => stmtAccesses bvm ini ++ stmtAccesses bvm body
  | .attrStmt _ _ body => stmtAccesses bvm body
  | .alloc _ _ body => stmtAccesses bvm body

/-- Keep, in order, the first access to each buffer not yet `seen`,
projected to its region. -/
def firstRegions : List Access → List Nat → List BufferRegion
  | [], _ => []
  | a :: l, seen =>
      if seen.contains a.region.buffer then firstRegions l seen
      else a.region :: firstRegions l (a.region.buffer :: seen)

/-- The block-body accesses of one classification, in depth-first
order. -/
def accessesOfKind (bvm : List Nat) (body : Stmt) (k : AccessKind) : List Access :=
  (stmtAccesses bvm body).filter fun a => a.kind == k

/-- Modelled from the spec: the native `GetBlockAccessRegion` is not
under `src/`.  Returns the read, write and opaque region lists of the
block body, in that order, each deduplicated by buffer keeping the
first occurrence of the depth-first traversal. -/
def get_block_access_region (body : Stmt) (bvm : List Nat) : List (List BufferRegion) :=
  [firstRegions (accessesOfKind bvm body .read) [],
   firstRegions (accessesOfKind bvm body .write) [],
   firstRegions (accessesOfKind bvm body .opq) []]

/-- The block-body accesses counted as reads (resp. writes) by the
combined variant: opaque accesses count as both. -/
def accessesOfRW (bvm : List Nat) (body : Stmt) (w : Bool) : List Access :=
  (stmtAccesses bvm body).filter fun a =>
    a.kind == (if w then .write else .read) || a.kind == .opq

/-- Modelled from the spec: the native `GetBlockReadWriteRegion` is not
under `src/`.  Produces exactly two region lists, with every opaque
access merged conservatively into both. -/
def get_block_read_write_region (body : Stmt) (bvm : List Nat) : List (List BufferRegion) :=
  [firstRegions (accessesOfRW bvm body false) [],
   firstRegions (accessesOfRW bvm body true) []]

theorem firstRegions_sublist (l : List Access) :
    ∀ seen : List Nat, List.Sublist (firstRegions l seen) (l.map (fun a => a.region)) := by
  induction l with
  | nil => intro seen; simp [firstRegions]
  | cons a l ih =>
      intro seen
      rw [firstRegions]
      split
      · exact (ih seen).cons _
      · exact (ih _).cons₂ _

theorem firstRegions_not_seen {l : List Access} :
    ∀ {seen : List Nat} {r : BufferRegion},
      r ∈ firstRegions l seen → r.buffer ∉ seen := by
  induction l with
  | nil => intro seen r h; simp [firstRegions] at h
  | cons a l ih =>
      intro seen r h
      rw [firstRegions] at h
      split at h <;> rename_i hc
      · exact ih h
      · rcases List.mem_cons.mp h with h1 | h1
        · subst h1
          simpa using hc
        · intro hmem
          exact ih h1 (List.mem_cons_of_mem _ hmem)

theorem firstRegions_nodup (l : List Access) :
    ∀ seen : List Nat, ((firstRegions l seen).map (fun r => r.buffer)).Nodup := by
  induction l with
  | nil => intro seen; simp [firstRegions]
  | cons a l ih =>
      intro seen
      rw [firstRegions]
      split
      · exact ih _
      · rw [List.map_cons, List.nodup_cons]
        refine ⟨?_, ih _⟩
        intro hmem
        obtain ⟨r, hr, hrb⟩ := List.mem_map.mp hmem
        exact firstRegions_not_seen hr (by rw [hrb]; exact List.mem_cons_self _ _)

theorem firstRegions_is_first {l : List Access} :
    ∀ {seen : List Nat} {r : BufferRegion}, r ∈ firstRegions l seen →
      (l.find? fun a => a.region.buffer == r.buffer).map (fun a => a.region) = some r := by
  induction l with
  | nil => intro seen r h; simp [firstRegions] at h
  | cons a l ih =>
      intro seen r h
      rw [firstRegions] at h
      split at h <;> rename_i hc
      · have hne : a.region.buffer ≠ r.buffer := by
          intro he
          exact firstRegions_not_seen h (he ▸ (by simpa using hc))
        rw [List.find?_cons_of_neg _ (by simpa using hne)]
        exact ih h
      · rcases List.mem_cons.mp h with h1 | h1
        · subst h1
          rw [List.find?_cons_of_pos _ (by simp)]
          rfl
        · have hne : a.region.buffer ≠ r.buffer := by
            intro he
            exact firstRegions_not_seen h1 (by rw [← he]; exact List.mem_cons_self _ _)
          rw [List.find?_cons_of_neg _ (by simpa using hne)]
          exact ih h1

theorem firstRegions_complete {l : List Access} :
    ∀ {seen : List Nat} {b : Nat}, (∃ a ∈ l, a.region.buffer = b) → b ∉ seen →
      ∃ r ∈ firstRegions l seen, r.buffer = b := by
  induction l with
  | nil => intro seen b h _; simp at h
  | cons a l ih =>
      intro seen b h hns
      obtain ⟨w, hw, hwb⟩ := h
      rw [firstRegions]
      split <;> rename_i hc
      · rcases List.mem_cons.mp hw with h1 | h1
        · subst h1
          exact absurd (hwb ▸ (by simpa using hc)) hns
        · exact ih ⟨w, h1, hwb⟩ hns
      · by_cases hb : a.region.buffer = b
        · exact ⟨a.region, List.mem_cons_self _ _, hb⟩
        · rcases List.mem_cons.mp hw with h1 | h1
          · exact absurd (h1 ▸ hwb) hb
          · have : b ∉ a.region.buffer :: seen := by
              intro hmem
              rcases List.mem_cons.mp hmem with h2 | h2
              · exact hb h2.symm
              · exact hns h2
            obtain ⟨r, hr, hrb⟩ := ih ⟨w, h1, hwb⟩ this
            exact ⟨r, List.mem_cons_of_mem _ hr, hrb⟩

/-- The list `rs` consists of regions of `accs`, in order, one per
buffer, each the first access to its buffer in the traversal order of
`accs`. -/
def orderedByFirstOcc (accs : List Access) (rs : List BufferRegion) : Prop :=
  List.Sublist rs (accs.map fun a => a.region) ∧
  ((rs.map fun r => r.buffer).Nodup) ∧
  ∀ r ∈ rs, (accs.find? fun a => a.region.buffer == r.buffer).map (fun a => a.region) = some r

theorem firstRegions_ordered (l : List Access) : orderedByFirstOcc l (firstRegions l []) :=
  ⟨firstRegions_sublist l [], firstRegions_nodup l [], fun _ hr => firstRegions_is_first hr⟩

/-- The block body of the region example: a loop writing `A[i]` and
reading `A[i-1]`, followed by an opaque handle passing of buffer 2. -/
def c1Body : Stmt :=
  .seq
    (.forLoop varX (.imm 0) (.imm 4)
      (.store 0 (.var varX) (.add (.load 0 (.sub (.var varX) (.imm 1))) (.imm 1))))
    (.handleCall 2)

/-- Read footprint of the example: `A` at index `i-1`. -/
def c1ReadA : BufferRegion := ⟨0, [⟨.sub (.var varX) (.imm 1), .imm 1⟩]⟩

/-- Write footprint of the example: `A` at index `i`. -/
def c1WriteA : BufferRegion := ⟨0, [⟨.var varX, .imm 1⟩]⟩

/-- Opaque footprint of the example: buffer 2, unconstrained ranges. -/
def c1OpqC : BufferRegion := ⟨2, []⟩

/-- C1: `get_block_access_region` returns exactly three lists — reads,
writes, opaque, in that order — each holding one region per accessed
buffer, ordered by first occurrence in a depth-first traversal of the
block body (formalised: each list is a sublist of the traversal's
region sequence, has pairwise-distinct buffers, and each entry is its
buffer's first access); and `get_block_read_write_region` returns
exactly two lists in which every opaque access of the block appears in
both the read list and the write list. -/
theorem get_block_access_region_three_ordered :
    (∀ (body : Stmt) (bvm : List Nat),
        get_block_access_region body bvm =
          [firstRegions (accessesOfKind bvm body .read) [],
           firstRegions (accessesOfKind bvm body .write) [],
           firstRegions (accessesOfKind bvm body .opq) []] ∧
        (∀ k : AccessKind,
          orderedByFirstOcc (accessesOfKind bvm body k)
            (firstRegions (accessesOfKind bvm body k) [])) ∧
        get_block_read_write_region body bvm =
          [firstRegions (accessesOfRW bvm body false) [],
           firstRegions (accessesOfRW bvm body true) []] ∧
        (∀ a ∈ stmtAccesses bvm body, a.kind = .opq →
          (∃ r ∈ firstRegions (accessesOfRW bvm body false) [],
              r.buffer = a.region.buffer) ∧
          (∃ r ∈ firstRegions (accessesOfRW bvm body true) [],
              r.buffer = a.region.buffer))) ∧
    get_block_access_region c1Body [0, 1, 2] = [[c1ReadA], [c1WriteA], [c1OpqC]] ∧
    get_block_read_write_region c1Body [0, 1, 2] =
      [[c1WriteA, c1ReadA].tail ++ [c1OpqC], [c1WriteA, c1OpqC]] := by
  refine ⟨?_, by decide, by decide⟩
  intro body bvm
  refine ⟨rfl, fun k => firstRegions_ordered _, rfl, ?_⟩
  intro a ha hk
  constructor
  · refine firstRegions_complete ⟨a, ?_, rfl⟩ (by simp)
    exact List.mem_filter.mpr ⟨ha, by simp [hk]⟩
  · refine firstRegions_complete ⟨a, ?_, rfl⟩ (by simp)
    exact List.mem_filter.mpr ⟨ha, by simp [hk]⟩

/-- C1 witness: the claim theorem applied to the concrete block body;
the opaque access to buffer 2 appears in both combined lists. -/
theorem get_block_access_region_three_ordered_witness :
    (∃ r ∈ firstRegions (accessesOfRW [0, 1, 2] c1Body false) [],
        r.buffer = (⟨.opq, ⟨2, []⟩⟩ : Access).region.buffer) ∧
    (∃ r ∈ firstRegions (accessesOfRW [0, 1, 2] c1Body true) [],
        r.buffer = (⟨.opq, ⟨2, []⟩⟩ : Access).region.buffer) :=
  (get_block_access_region_three_ordered.1 c1Body [0, 1, 2]).2.2.2
    ⟨.opq, ⟨2, []⟩⟩ (by decide) rfl

/-- Buffers loaded by an expression, in depth-first order. -/
def exprBufs : PrimExpr → List Nat
  | .var _ => []
  | .imm _ => []
  | .add a b => exprBufs a ++ exprBufs b
  | .sub a b => exprBufs a ++ exprBufs b
  | .mul a b => exprBufs a ++ exprBufs b
  | .lt a b => exprBufs a ++ exprBufs b
  | .land a b => exprBufs a ++ exprBufs b
  | .load b i => b :: exprBufs i

/-- Modelled from the spec: the access sites collected by the native
`_ffi_api.detect_buffer_access_lca` (not under `src/`): each buffer
access (load, store, opaque handle passing) is paired with its ancestor
chain, the root-to-node path through the enclosing loop and block
nodes. -/
def accessChains (chain : List Stmt) : Stmt → List (Nat × List Stmt)
  | .skip => []
  | .seq a b => accessChains chain a ++ accessChains chain b
  | .forLoop v mn ex body =>
      ((exprBufs mn ++ exprBufs ex).map
          fun b => (b, chain ++ [Stmt.forLoop v mn ex body]))
        ++ accessChains (chain ++ [Stmt.forLoop v mn ex body]) body
  | .letStmt _ e body =>
      ((exprBufs e).map fun b => (b, chain)) ++ accessChains chain body
  | .store b i v =>
      (b, chain) :: ((exprBufs i ++ exprBufs v).map fun x => (x, chain))
  | .evalStmt e => (exprBufs e).map fun b => (b, chain)
  | .handleCall b => [(b, chain)]
  | .block ivs body => accessChains (chain ++ [Stmt.block ivs body]) body
  | .blockInit ivs ini body =>
      accessChains (chain ++ [Stmt.blockInit ivs ini body]) ini
        ++ accessChains (chain ++ [Stmt.blockInit ivs ini body]) body
  | .attrStmt _ _ body => accessChains chain body
  | .alloc _ _ body => accessChains chain body

/-- Longest common prefix of two ancestor chains. -/
def commonPref : List Stmt → List Stmt → List Stmt
  | a :: as, b :: bs => if a = b then a :: commonPref as bs else []
  | _, _ => []

/-- Deduplicate a key list keeping first occurrences. -/
def firstKeys : List Nat → List Nat → List Nat
  | [], _ => []
  | b :: l, seen =>
      if seen.contains b then firstKeys l seen else b :: firstKeys l (b :: seen)

/-- The ancestor chains of all access sites of buffer `b`. -/
def chainsFor (l : List (Nat × List Stmt)) (b : Nat) : List (List Stmt) :=
  (l.filter fun p => p.1 == b).map fun p => p.2

/-- For each accessed buffer, the longest common prefix of the ancestor
chains of all its access sites. -/
def lcaChainsMap (f : PrimFunc) : List (Nat × List Stmt) :=
  (firstKeys ((accessChains [] f.body).map fun p => p.1) []).map fun b =>
    (b, match chainsFor (accessChains [] f.body) b with
        | [] => []
        | c :: cs => cs.foldl commonPref c)

/-- Modelled from the spec: the native
`_ffi_api.detect_buffer_access_lca` is not under `src/`.  Maps each
accessed buffer to the deepest node of the common ancestor chain
(`none` meaning the function root). -/
def detect_buffer_access_lca (f : PrimFunc) : List (Nat × Option Stmt) :=
  (lcaChainsMap f).map fun p => (p.1, p.2.getLast?)

theorem prefTrans {p q r : List Stmt} (h1 : p <+: q) (h2 : q <+: r) : p <+: r := by
  obtain ⟨t1, rfl⟩ := h1
  obtain ⟨t2, rfl⟩ := h2
  exact ⟨t1 ++ t2, (List.append_assoc _ _ _).symm⟩

theorem commonPref_left : ∀ a b : List Stmt, commonPref a b <+: a := by
  intro a
  induction a with
  | nil => intro b; exact ⟨[], rfl⟩
  | cons x as ih =>
      intro b
      cases b with
      | nil => exact ⟨x :: as, rfl⟩
      | cons y bs =>
          rw [commonPref]
          split <;> rename_i he
          · subst he
            obtain ⟨t, ht⟩ := ih bs
            exact ⟨t, by rw [List.cons_append, ht]⟩
          · exact ⟨x :: as, rfl⟩

theorem commonPref_right : ∀ a b : List Stmt, commonPref a b <+: b := by
  intro a
  induction a with
  | nil => intro b; exact ⟨b, rfl⟩
  | cons x as ih =>
      intro b
      cases b with
      | nil => exact ⟨[], rfl⟩
      | cons y bs =>
          rw [commonPref]
          split <;> rename_i he
          · subst he
            obtain ⟨t, ht⟩ := ih bs
            exact ⟨t, by rw [List.cons_append, ht]⟩
          · exact ⟨y :: bs, rfl⟩

theorem commonPref_greatest : ∀ (q a b : List Stmt),
    q <+: a → q <+: b → q <+: commonPref a b := by
  intro q
  induction q with
  | nil => intro a b _ _; exact ⟨commonPref a b, rfl⟩
  | cons x qs ih =>
      intro a b h1 h2
      obtain ⟨t1, ht1⟩ := h1
      obtain ⟨t2, ht2⟩ := h2
      rw [← ht1, ← ht2]
      rw [List.cons_append, List.cons_append, commonPref, if_pos rfl]
      obtain ⟨t, ht⟩ := ih (qs ++ t1) (qs ++ t2) ⟨t1, rfl⟩ ⟨t2, rfl⟩
      exact ⟨t, by rw [List.cons_append, ht]⟩

theorem foldl_commonPref_acc : ∀ (cs : List (List Stmt)) (c : List Stmt),
    cs.foldl commonPref c <+: c := by
  intro cs
  induction cs with
  | nil => intro c; exact ⟨[], List.append_nil c⟩
  | cons x xs ih =>
      intro c
      rw [List.foldl_cons]
      exact prefTrans (ih _) (commonPref_left c x)

theorem foldl_commonPref_mem : ∀ (cs : List (List Stmt)) (c : List Stmt),
    ∀ x ∈ cs, cs.foldl commonPref c <+: x := by
  intro cs
  induction cs with
  | nil => intro c x hx; simp at hx
  | cons y ys ih =>
      intro c x hx
      rw [List.foldl_cons]
      rcases List.mem_cons.mp hx with h1 | h1
      · subst h1
        exact prefTrans (foldl_commonPref_acc _ _) (commonPref_right c x)
      · exact ih _ x h1

theorem foldl_commonPref_greatest : ∀ (cs : List (List Stmt)) (c q : List Stmt),
    q <+: c → (∀ x ∈ cs, q <+: x) → q <+: cs.foldl commonPref c := by
  intro cs
  induction cs with
  | nil => intro c q h _; exact h
  | cons y ys ih =>
      intro c q h hall
      rw [List.foldl_cons]
      exact ih _ _ (commonPref_greatest q c y h (hall y (List.mem_cons_self _ _)))
        fun x hx => hall x (List.mem_cons_of_mem _ hx)

theorem firstKeys_sub : ∀ (l seen : List Nat) (b : Nat),
    b ∈ firstKeys l seen → b ∈ l := by
  intro l
  induction l with
  | nil => intro seen b h; simp [firstKeys] at h
  | cons x xs ih =>
      intro seen b h
      rw [firstKeys] at h
      split at h
      · exact List.mem_cons_of_mem _ (ih _ _ h)
      · rcases List.mem_cons.mp h with h1 | h1
        · exact h1 ▸ List.mem_cons_self _ _
        · exact List.mem_cons_of_mem _ (ih _ _ h1)

theorem firstKeys_complete : ∀ (l seen : List Nat) (b : Nat),
    b ∈ l → b ∉ seen → b ∈ firstKeys l seen := by
  intro l
  induction l with
  | nil => intro seen b h _; simp at h
  | cons x xs ih =>
      intro seen b h hns
      rw [firstKeys]
      split <;> rename_i hc
      · rcases List.mem_cons.mp h with h1 | h1
        · exact absurd (h1 ▸ (by simpa using hc)) hns
        · exact ih _ _ h1 hns
      · by_cases hb : b = x
        · exact hb ▸ List.mem_cons_self _ _
        · rcases List.mem_cons.mp h with h1 | h1
          · exact absurd h1 hb
          · refine List.mem_cons_of_mem _ (ih _ _ h1 ?_)
            intro hmem
            rcases List.mem_cons.mp hmem with h2 | h2
            · exact hb h2
            · exact hns h2

/-- An innermost loop accessing buffer 0 in its body only. -/
def lcaLoop1 : Stmt :=
  .forLoop varX (.imm 0) (.imm 4) (.store 0 (.var varX) (.imm 1))

/-- Function whose single buffer access lies in one innermost loop. -/
def lcaFunc1 : PrimFunc := { params := [], body := lcaLoop1 }

/-- First sibling loop of the second example, accessing buffer 0. -/
def lcaLoop21 : Stmt :=
  .forLoop varX (.imm 0) (.imm 4) (.store 0 (.var varX) (.imm 1))

/-- Second sibling loop of the second example, accessing buffer 0. -/
def lcaLoop22 : Stmt :=
  .forLoop varY (.imm 0) (.imm 4) (.store 0 (.var varY) (.imm 2))

/-- Parent block holding the two sibling loops. -/
def lcaBlock2 : Stmt := .block [] (.seq lcaLoop21 lcaLoop22)

/-- Function in which buffer 0 is accessed in two sibling loops under a
common parent block. -/
def lcaFunc2 : PrimFunc := { params := [], body := lcaBlock2 }

/-- C2: `detect_buffer_access_lca` maps each accessed buffer to the
deepest statement common to the ancestor chains of all its access
sites: every buffer in the access list receives an entry; the computed
chain is a common prefix of every access chain of that buffer and every
common prefix is a prefix of it (so its last node is the deepest common
ancestor); a buffer accessed only within one innermost loop maps to
that loop, and one accessed in two sibling loops under a common parent
block maps to that parent block. -/
theorem detect_buffer_access_lca_deepest_common :
    (∀ (f : PrimFunc) (b : Nat),
        b ∈ (accessChains [] f.body).map (fun p => p.1) →
        ∃ p, (b, p) ∈ lcaChainsMap f) ∧
    (∀ (f : PrimFunc) (b : Nat) (p : List Stmt),
        (b, p) ∈ lcaChainsMap f →
        (∀ c ∈ chainsFor (accessChains [] f.body) b, p <+: c) ∧
        (∀ q, (∀ c ∈ chainsFor (accessChains [] f.body) b, q <+: c) → q <+: p)) ∧
    detect_buffer_access_lca lcaFunc1 = [(0, some lcaLoop1)] ∧
    detect_buffer_access_lca lcaFunc2 = [(0, some lcaBlock2)] := by
  refine ⟨?_, ?_, by decide, by decide⟩
  · intro f b hb
    refine ⟨_, List.mem_map.mpr ⟨b, ?_, rfl⟩⟩
    exact firstKeys_complete _ [] b hb (by simp)
  · intro f b p hp
    obtain ⟨b2, hb2, hpair⟩ := List.mem_map.mp hp
    have hb2b : b2 = b := congrArg Prod.fst hpair
    have hmatch : (match chainsFor (accessChains [] f.body) b with
        | [] => []
        | c :: cs => cs.foldl commonPref c) = p := by
      have hsnd := congrArg Prod.snd hpair
      simpa [hb2b] using hsnd
    rw [hb2b] at hb2
    have hbl : b ∈ (accessChains [] f.body).map (fun q => q.1) :=
      firstKeys_sub _ _ _ hb2
    obtain ⟨pr, hpr, hprb⟩ := List.mem_map.mp hbl
    have hprmem : pr.2 ∈ chainsFor (accessChains [] f.body) b :=
      List.mem_map.mpr ⟨pr, List.mem_filter.mpr ⟨hpr, by simp [hprb]⟩, rfl⟩
    cases hc : chainsFor (accessChains [] f.body) b with
    | nil => rw [hc] at hprmem; simp at hprmem
    | cons c cs =>
        rw [hc] at hmatch
        subst hmatch
        constructor
        · intro ch hch
          rcases List.mem_cons.mp hch with h1 | h1
          · exact h1 ▸ foldl_commonPref_acc cs c
          · exact foldl_commonPref_mem cs c ch h1
        · intro q hq
          exact foldl_commonPref_greatest cs c q
            (hq c (List.mem_cons_self _ _))
            fun x hx => hq x (List.mem_cons_of_mem _ hx)

/-- C2 witness: the claim theorem applied to the sibling-loop function;
the computed common chain `[parent block]` is a prefix of the first
access site's chain `[parent block, first loop]`. -/
theorem detect_buffer_access_lca_deepest_common_witness :
    [lcaBlock2] <+: [lcaBlock2, lcaLoop21] :=
  (detect_buffer_access_lca_deepest_common.2.1 lcaFunc2 0 [lcaBlock2] (by decide)).1
    [lcaBlock2, lcaLoop21] (by decide)

/-- Modelled from the spec: threads per block of a kernel scope — the
product of the `thread_extent` attribute values in the subtree (native
`_ffi_api.verify_gpu_code` is not under `src/`). -/
def threadCount : Stmt → Nat
  | .skip => 1
  | .seq a b => threadCount a * threadCount b
  | .forLoop _ _ _ b => threadCount b
  | .letStmt _ _ b => threadCount b
  | .store _ _ _ => 1
  | .evalStmt _ => 1
  | .handleCall _ => 1
  | .block _ b => threadCount b
  | .blockInit _ i b => threadCount i * threadCount b
  | .attrStmt k n b => (if k = "thread_extent" then n else 1) * threadCount b
  | .alloc _ _ b => threadCount b

/-- Modelled from the spec: shared-memory bytes of a kernel scope — the
sum of the sizes of `shared`-scope allocations in the subtree. -/
def sharedBytes : Stmt → Nat
  | .skip => 0
  | .seq a b => sharedBytes a + sharedBytes b
  | .forLoop _ _ _ b => sharedBytes b
  | .letStmt _ _ b => sharedBytes b
  | .store _ _ _ => 0
  | .evalStmt _ => 0
  | .handleCall _ => 0
  | .block _ b => sharedBytes b
  | .blockInit _ i b => sharedBytes i + sharedBytes b
  | .attrStmt _ _ b => sharedBytes b
  | .alloc sc n b => (if sc = "shared" then n else 0) + sharedBytes b

/-- Modelled from the spec: the kernel-launch scopes of a function
body, marked by a `kernel_launch` attribute node. -/
def kernelScopes : Stmt → List Stmt
  | .skip => []
  | .seq a b => kernelScopes a ++ kernelScopes b
  | .forLoop _ _ _ b => kernelScopes b
  | .letStmt _ _ b => kernelScopes b
  | .store _ _ _ => []
  | .evalStmt _ => []
  | .handleCall _ => []
  | .block _ b => kernelScopes b
  | .blockInit _ i b => kernelScopes i ++ kernelScopes b
  | .attrStmt k n b =>
      if k = "kernel_launch" then [Stmt.attrStmt k n b] else kernelScopes b
  | .alloc _ _ b => kernelScopes b

/-- Modelled from the spec: the named per-kernel resource counters. -/
def resourceUsage (s : Stmt) : List (String × Nat) :=
  [("max_num_threads", threadCount s),
   ("max_shared_memory_per_block", sharedBytes s)]

/-- Lookup of a resource name in the caller-supplied constraints. -/
def lookupConstraint (cs : List (String × Nat)) (n : String) : Option Nat :=
  (cs.find? fun p => p.1 == n).map fun p => p.2

/-- One resource check: unconstrained names always pass; a constrained
name passes iff the usage does not exceed the limit. -/
def fitsLimit (cs : List (String × Nat)) (p : String × Nat) : Bool :=
  match lookupConstraint cs p.1 with
  | none => true
  | some lim => decide (p.2 ≤ lim)

/-- Modelled from the spec: the native `_ffi_api.verify_gpu_code` is
not under `src/`.  Every kernel scope's every computed resource must
fit its named limit. -/
def verify_gpu_code (f : PrimFunc) (cs : List (String × Nat)) : Bool :=
  (kernelScopes f.body).all fun sc => (resourceUsage sc).all fun p => fitsLimit cs p

theorem fitsLimit_false_iff {cs : List (String × Nat)} {p : String × Nat} :
    fitsLimit cs p = false ↔
      ∃ lim, lookupConstraint cs p.1 = some lim ∧ lim < p.2 := by
  rw [fitsLimit]
  cases h : lookupConstraint cs p.1 <;> simp [h, Nat.lt_iff_add_one_le, Nat.not_le]

/-- A kernel scope of 16×16 = 256 threads and 1024 shared bytes. -/
def gpuFunc : PrimFunc :=
  { params := []
    body := .attrStmt "kernel_launch" 0
      (.attrStmt "thread_extent" 16
        (.attrStmt "thread_extent" 16
          (.alloc "shared" 1024 (.store 0 (.var varX) (.imm 1))))) }

/-- C8: `verify_gpu_code` returns `false` iff some kernel scope's
computed resource usage exceeds the integer limit given under its name
in the constraints mapping; resource names absent from the constraints
are never checked (an empty constraints mapping always passes, and the
256-thread kernel passes a 512-thread limit even with its 1024 shared
bytes unconstrained, but fails a 128-thread limit). -/
theorem verify_gpu_code_false_iff_exceeds :
    (∀ (f : PrimFunc) (cs : List (String × Nat)),
        verify_gpu_code f cs = false ↔
          ∃ sc ∈ kernelScopes f.body, ∃ p ∈ resourceUsage sc, ∃ lim,
            lookupConstraint cs p.1 = some lim ∧ lim < p.2) ∧
    (∀ f : PrimFunc, verify_gpu_code f [] = true) ∧
    verify_gpu_code gpuFunc [("max_num_threads", 512)] = true ∧
    verify_gpu_code gpuFunc [("max_num_threads", 128)] = false := by
  refine ⟨?_, ?_, by decide, by decide⟩
  · intro f cs
    rw [← Bool.not_eq_true, verify_gpu_code]
    simp only [List.all_eq_true, not_forall, Classical.not_imp, Bool.not_eq_true,
      fitsLimit_false_iff, exists_prop]
  · intro f
    rw [verify_gpu_code]
    refine List.all_eq_true.mpr fun sc _ => List.all_eq_true.mpr fun p _ => rfl

/-- C8 witness: the claim theorem applied to the 256-thread kernel with
a 128-thread limit exhibits the exceeded resource. -/
theorem verify_gpu_code_false_iff_exceeds_witness :
    ∃ sc ∈ kernelScopes gpuFunc.body, ∃ p ∈ resourceUsage sc, ∃ lim,
      lookupConstraint [("max_num_threads", 128)] p.1 = some lim ∧ lim < p.2 :=
  (verify_gpu_code_false_iff_exceeds.1 gpuFunc [("max_num_threads", 128)]).mp
    (by decide)
